import Mathlib

/-!
Verification of the parsecs ECS core (`src/parsecs.ts`).

The TypeScript runtime keeps its state in JavaScript `Map` and `Set`
containers, whose iteration order is insertion order.  We embed them as
association lists (`JsMap`) and ordered lists (`JsSet.add`): `set` replaces
the value in place when the key is present and appends otherwise, exactly
like `Map.prototype.set`; `delete` drops the key; `keys` enumerates in
stored order.  Components are tagged records (a string discriminant `type`
plus a payload, modelled opaquely as a `Nat`).  Mutation on the `App` class
becomes explicit state passing on a `Store` structure.
-/

namespace Parsecs

abbrev Entity := Nat

/-- `Component<Name, T> = T & \x7b type: Name \x7d`: a tagged record.  The
payload is opaque data; a `Nat` stands for it. -/
structure Component where
  type : String
  payload : Nat
deriving DecidableEq

/-- Insertion-ordered association list modelling a JavaScript `Map`. -/
abbrev JsMap (K V : Type) := List (K × V)

namespace JsMap

variable {K V : Type} [DecidableEq K]

/-- `Map.prototype.get`: the value stored at `k`, if present. -/
def get : JsMap K V → K → Option V
  | [], _ => none
  | (k1, v) :: rest, k => if k1 = k then some v else get rest k

/-- `Map.prototype.has`. -/
def has : JsMap K V → K → Bool
  | [], _ => false
  | (k1, _) :: rest, k => k1 = k || has rest k

/-- `Map.prototype.set`: replaces in place when the key is present
(keeping its insertion position), appends otherwise. -/
def set : JsMap K V → K → V → JsMap K V
  | [], k, v => [(k, v)]
  | (k1, v1) :: rest, k, v =>
      if k1 = k then (k1, v) :: rest else (k1, v1) :: set rest k v

/-- `Map.prototype.delete` (the return value is unused by the program). -/
def delete (m : JsMap K V) (k : K) : JsMap K V :=
  m.filter (fun p => p.1 ≠ k)

/-- `Map.prototype.keys`, in insertion order. -/
def keys (m : JsMap K V) : List K :=
  m.map Prod.fst

/-- Rewrite every stored value, keeping keys and order: the effect of
iterating `keys()` and updating each entry in place. -/
def mapVal (f : K → V → V) (m : JsMap K V) : JsMap K V :=
  m.map (fun p => (p.1, f p.1 p.2))

end JsMap

namespace JsSet

/-- `Set.prototype.add`: appends unless already present. -/
def add (s : List Entity) (e : Entity) : List Entity :=
  if e ∈ s then s else s ++ [e]

/-- `Set.prototype.delete`. -/
def delete (s : List Entity) (e : Entity) : List Entity :=
  s.filter (fun x => x ≠ e)

end JsSet

/-- The mutable state of the `App` class that the entity/component
operations touch: `entities` (a `Set<Entity>`), `components`
(a `Map<type, Map<Entity, Component>>`) and the `nextId` counter.
Systems are scheduled separately (see `SchedApp`). -/
structure Store where
  entities : List Entity
  components : JsMap String (JsMap Entity Component)
  nextId : Nat
deriving DecidableEq

namespace Store

/-- The state of a freshly constructed `App`. -/
def new : Store :=
  { entities := [], components := [], nextId := 0 }

/-- `App.addComponent`: create the per-type sub-map lazily, then store the
component under its own `type` tag. -/
def addComponent (s : Store) (e : Entity) (c : Component) : Store :=
  let m0 := if s.components.has c.type then s.components
            else s.components.set c.type ([] : JsMap Entity Component)
  match m0.get c.type with
  | none => { s with components := m0 }
  | some sub => { s with components := m0.set c.type (sub.set e c) }

/-- `App.addEntity`: allocate `nextId`, register it, add the initial
components; returns the updated store and the new id (the fluent
`actions.add` is a further `addComponent` call). -/
def addEntity (s : Store) (cs : List Component) : Store × Entity :=
  let id := s.nextId
  let s1 : Store :=
    { s with nextId := s.nextId + 1, entities := JsSet.add s.entities id }
  (cs.foldl (fun st c => st.addComponent id c) s1, id)

/-- `App.removeComponent`: `components.get(type)?.delete(entity)`. -/
def removeComponent (s : Store) (e : Entity) (t : String) : Store :=
  match s.components.get t with
  | none => s
  | some sub => { s with components := s.components.set t (sub.delete e) }

/-- `App.removeEntity`: delete the entity from every type's sub-map
(iterating `components.keys()`), then from the entity set. -/
def removeEntity (s : Store) (e : Entity) : Store :=
  { s with
    components := JsMap.mapVal (fun _ sub => sub.delete e) s.components,
    entities := JsSet.delete s.entities e }

/-- `App.getComponent`: `components.get(type)?.get(id)`; never throws. -/
def getComponent (s : Store) (e : Entity) (t : String) : Option Component :=
  match s.components.get t with
  | none => none
  | some sub => sub.get e

/-- `App.hasComponent`: `components.get(type)?.has(id) ?? false`. -/
def hasComponent (s : Store) (e : Entity) (t : String) : Bool :=
  match s.components.get t with
  | none => false
  | some sub => sub.has e

/-- `App.getEntities`: the live entities, in insertion order. -/
def getEntities (s : Store) : List Entity :=
  s.entities

/-- `App.clearEntities`: empties the entity set and the component store. -/
def clearEntities (s : Store) : Store :=
  { s with entities := [], components := [] }

/-- `App.clear` restricted to the store state: `clearEntities` (the
`clearSystems` half acts on the system lists, see `SchedApp.clear`). -/
def clear (s : Store) : Store :=
  s.clearEntities

end Store

/-- One query result tuple: the components in input-list order (slots
`0..n-1`, each filled by `getComponent`, hence optional), then the entity
id in the last slot. -/
structure QTuple where
  comps : List (Option Component)
  entity : Entity
deriving DecidableEq

namespace Store

/-- `App.storeQueryTuple`: fill slot `i` with `getComponent(entity,
types[i])` for each `i`, and the final slot with the entity id. -/
def storeQueryTuple (s : Store) (types : List String) (e : Entity) : QTuple :=
  { comps := types.map (fun t => s.getComponent e t), entity := e }

/-- `App.checkRemainingComponents`: the entity already has `types[0]`;
check `types[1..]` by `hasComponent`. -/
def checkRemainingComponents (s : Store) (e : Entity) (types : List String) : Bool :=
  (types.drop 1).all (fun t => s.hasComponent e t)

/-- `App.query` (eager): iterate the keys of the anchor type's sub-map, keep
the entities passing `checkRemainingComponents`, and materialize one fresh
tuple per survivor.  The TypeScript type `[H, ...T]` forces a non-empty
type list: `t0` is the anchor, `rest` the remaining tags. -/
def query (s : Store) (t0 : String) (rest : List String) : List QTuple :=
  match s.components.get t0 with
  | none => []
  | some sub =>
      ((sub.keys).filter
          (fun e => s.checkRemainingComponents e (t0 :: rest))).map
        (fun e => s.storeQueryTuple (t0 :: rest) e)

/-- Loop body of `App.queryIter`: walk the anchor entities, yielding the
contents of the shared tuple buffer after each `storeQueryTuple` fill.  The
buffer is fully overwritten before every yield, so the yielded snapshots
need no buffer threading. -/
def queryIterAux (s : Store) (types : List String) : List Entity → List QTuple
  | [] => []
  | e :: es =>
      if s.checkRemainingComponents e types
      then s.storeQueryTuple types e :: queryIterAux s types es
      else queryIterAux s types es

/-- `App.queryIter` (lazy generator), consumed to completion: the sequence
of tuple values observed at each yield. -/
def queryIter (s : Store) (t0 : String) (rest : List String) : List QTuple :=
  match s.components.get t0 with
  | none => []
  | some sub => queryIterAux s (t0 :: rest) sub.keys

end Store

/-- State of the closure returned by `cacheQuery`: the captured type list
and the `cache` variable. -/
structure CachedQuery where
  t0 : String
  rest : List String
  cache : Option (List QTuple)
deriving DecidableEq

/-- `cacheQuery`: build the memoizing wrapper with an empty cache. -/
def cacheQuery (t0 : String) (rest : List String) : CachedQuery :=
  { t0 := t0, rest := rest, cache := none }

namespace CachedQuery

/-- `invalidate()`: reset the cache to `null`. -/
def invalidate (c : CachedQuery) : CachedQuery :=
  { c with cache := none }

/-- `get(app)`: on a cold cache run the eager query and remember it;
otherwise return the remembered snapshot.  Returns the result together
with the closure's updated state. -/
def get (c : CachedQuery) (app : Store) : List QTuple × CachedQuery :=
  match c.cache with
  | some r => (r, c)
  | none =>
      let r := app.query c.t0 c.rest
      (r, { c with cache := some r })

end CachedQuery

/-!
Scheduling.  A registered system is identified by an element of an abstract
type `σ` (JavaScript compares systems by reference identity); its behaviour
on the store is given by an interpretation `interp : σ → Store → Store`.
Systems are modelled as store transformers: the store is the only state the
scheduled claims touch.  Each invocation is recorded in a log, in order, so
"which systems ran, and when" is observable.
-/

/-- The scheduling state of the `App` class: the store plus the two ordered
system lists and the `running` flag. -/
structure SchedApp (σ : Type) where
  store : Store
  startupSystems : List σ
  systems : List σ
  running : Bool

namespace SchedApp

variable {σ : Type}

/-- Invoke each listed system once, in order, on the evolving store,
logging the invocations: the body of the `for` loops in `step` and of the
`forEach` in `run`. -/
def runSystems (interp : σ → Store → Store) (st : Store) :
    List σ → Store × List σ
  | [] => (st, [])
  | s :: ss =>
      let out := runSystems interp (interp s st) ss
      (out.1, s :: out.2)

/-- `App.step`: invoke every per-step system, in registration order, once
each; the running flag is not consulted. -/
def step (interp : σ → Store → Store) (a : SchedApp σ) :
    SchedApp σ × List σ :=
  let out := runSystems interp a.store a.systems
  ({ a with store := out.1 }, out.2)

/-- One iteration of `App.loop`: if running, perform a step (the
`requestAnimationFrame(this.loop)` re-entry is host-driven and modelled as
the host's subsequent explicit calls). -/
def loopOnce (interp : σ → Store → Store) (a : SchedApp σ) :
    SchedApp σ × List σ :=
  if a.running then step interp a else (a, [])

/-- `App.run`: set `running`, invoke every startup system once in
registration order, then enter the loop (whose first iteration runs
synchronously). -/
def run (interp : σ → Store → Store) (a : SchedApp σ) :
    SchedApp σ × List σ :=
  let a1 : SchedApp σ := { a with running := true }
  let su := runSystems interp a1.store a1.startupSystems
  let a2 : SchedApp σ := { a1 with store := su.1 }
  let out := loopOnce interp a2
  (out.1, su.2 ++ out.2)

/-- `N` successive explicit `step()` calls, with the concatenated log. -/
def stepsN (interp : σ → Store → Store) (a : SchedApp σ) :
    Nat → SchedApp σ × List σ
  | 0 => (a, [])
  | n + 1 =>
      let o1 := step interp a
      let o2 := stepsN interp o1.1 n
      (o2.1, o1.2 ++ o2.2)

end SchedApp

/-- The behaviour of a system on the store, for `combineSystems`. -/
abbrev SystemF := Store → Store

/-- `combineSystems(...systems)`: a single system that runs the given
systems on the handle in argument order (`for (i...) systems[i](app)`,
mutation threaded left to right). -/
def combineSystems (systems : List SystemF) : SystemF :=
  fun app => systems.foldl (fun a s => s a) app

/-- Invoking `s1, ..., sn` on the handle sequentially, one call after the
other: the reference behaviour `combineSystems` is compared against. -/
def applySequentially : List SystemF → Store → Store
  | [], app => app
  | s :: ss, app => applySequentially ss (s app)

/-!
Operation traces.  Claim C5 is about ids along any sequence of store
operations starting from a fresh `App`; `Op`/`runOps` replay such a
sequence.
-/

/-- A store-mutating API call. -/
inductive Op where
  | addEntity (cs : List Component)
  | addComponent (e : Entity) (c : Component)
  | removeComponent (e : Entity) (t : String)
  | removeEntity (e : Entity)
  | clearEntities
  | clear
deriving DecidableEq

/-- Apply one API call to the store. -/
def applyOp (s : Store) : Op → Store
  | .addEntity cs => (s.addEntity cs).1
  | .addComponent e c => s.addComponent e c
  | .removeComponent e t => s.removeComponent e t
  | .removeEntity e => s.removeEntity e
  | .clearEntities => s.clearEntities
  | .clear => s.clear

/-- Replay a call sequence. -/
def runOps (s : Store) : List Op → Store
  | [] => s
  | op :: ops => runOps (applyOp s op) ops

/-- The entity ids handed out by the `addEntity` calls of a sequence, in
order. -/
def allocatedIds (s : Store) : List Op → List Entity
  | [] => []
  | .addEntity cs :: ops =>
      (s.addEntity cs).2 :: allocatedIds (applyOp s (.addEntity cs)) ops
  | op :: ops => allocatedIds (applyOp s op) ops

/-- Well-formedness of the component store, as JavaScript `Map`s guarantee
it: no duplicate type tags, no duplicate entity keys inside a sub-map, and
every component sits under its own `type` tag (it was stored by
`addComponent`, which keys by `component.type`). -/
def CompsWF (m : JsMap String (JsMap Entity Component)) : Prop :=
  (m.keys).Nodup ∧
  ∀ p ∈ m,
    ((p.2.map Prod.fst).Nodup ∧ ∀ q ∈ p.2, (Prod.snd q).type = p.1)

instance (m : JsMap String (JsMap Entity Component)) : Decidable (CompsWF m) := by
  unfold CompsWF
  infer_instance

/-- A well-formed store.  Every state reachable from a fresh app satisfies
it (`runOps_wf`). -/
def Store.WF (s : Store) : Prop :=
  CompsWF s.components

instance (s : Store) : Decidable s.WF := by
  unfold Store.WF
  infer_instance

/-- The candidate set of a query: the keys of the anchor type's sub-map,
in insertion order (`components.get(types[0])?.keys()`). -/
def Store.anchorEntities (s : Store) (t0 : String) : List Entity :=
  match s.components.get t0 with
  | none => []
  | some sub => sub.keys

/-- `e` holds a component of every listed type. -/
def Store.holdsAll (s : Store) (e : Entity) (types : List String) : Bool :=
  types.all (fun t => s.hasComponent e t)

/-- The store of the spec's running example: entity 0 (A) with body and
shape, entity 1 (B) with body, movement and shape, entity 2 (C) with
shape only. -/
def exampleStore : Store :=
  (((Store.new.addEntity
        [{ type := "body", payload := 10 },
         { type := "shape", payload := 11 }]).1.addEntity
        [{ type := "body", payload := 20 },
         { type := "movement", payload := 21 },
         { type := "shape", payload := 22 }]).1.addEntity
        [{ type := "shape", payload := 30 }]).1

/-! Lemmas about the `JsMap` embedding of JavaScript `Map`. -/

namespace JsMap

variable {K V : Type} [DecidableEq K]

theorem has_eq_isSome_get (m : JsMap K V) (k : K) :
    m.has k = (m.get k).isSome := by
  induction m with
  | nil => rfl
  | cons p rest ih =>
      obtain ⟨k1, v1⟩ := p
      by_cases h : k1 = k <;> simp [JsMap.has, JsMap.get, h, ih]

theorem has_iff_mem_keys (m : JsMap K V) (k : K) :
    m.has k = true ↔ k ∈ m.keys := by
  induction m with
  | nil => simp [JsMap.has, JsMap.keys]
  | cons p rest ih =>
      obtain ⟨k1, v1⟩ := p
      simp only [JsMap.has, JsMap.keys, List.map_cons, List.mem_cons,
        Bool.or_eq_true, decide_eq_true_eq]
      constructor
      · intro hm
        rcases hm with hm | hm
        · exact Or.inl hm.symm
        · exact Or.inr (ih.mp hm)
      · intro hm
        rcases hm with hm | hm
        · exact Or.inl hm.symm
        · exact Or.inr (ih.mpr hm)

theorem get_mem (m : JsMap K V) (k : K) (v : V) :
    m.get k = some v → (k, v) ∈ m := by
  induction m with
  | nil => intro h; simp [JsMap.get] at h
  | cons p rest ih =>
      obtain ⟨k1, v1⟩ := p
      by_cases h : k1 = k
      · subst h
        simp [JsMap.get]
        intro h
        exact Or.inl h.symm
      · simp [JsMap.get, h]
        intro hg
        exact Or.inr (ih hg)

theorem get_isSome_of_mem_keys (m : JsMap K V) (k : K) :
    k ∈ m.keys → (m.get k).isSome := by
  intro h
  rw [← has_eq_isSome_get]
  exact (has_iff_mem_keys m k).mpr h

theorem get_set_self (m : JsMap K V) (k : K) (v : V) :
    (m.set k v).get k = some v := by
  induction m with
  | nil => simp [JsMap.set, JsMap.get]
  | cons p rest ih =>
      obtain ⟨k1, v1⟩ := p
      by_cases h : k1 = k <;> simp [JsMap.set, JsMap.get, h, ih]

theorem get_set_ne (m : JsMap K V) (k k1 : K) (v : V) (h : k1 ≠ k) :
    (m.set k v).get k1 = m.get k1 := by
  have h1 : k ≠ k1 := Ne.symm h
  induction m with
  | nil => simp [JsMap.set, JsMap.get, h1]
  | cons p rest ih =>
      obtain ⟨k2, v2⟩ := p
      by_cases h2 : k2 = k
      · subst h2
        simp [JsMap.set, JsMap.get, h1]
      · by_cases h3 : k2 = k1 <;> simp [JsMap.set, JsMap.get, h2, h3, h, ih]

theorem keys_set (m : JsMap K V) (k : K) (v : V) :
    (m.set k v).keys = if m.has k then m.keys else m.keys ++ [k] := by
  induction m with
  | nil => simp [JsMap.set, JsMap.keys, JsMap.has]
  | cons p rest ih =>
      obtain ⟨k1, v1⟩ := p
      by_cases h : k1 = k
      · simp [JsMap.set, JsMap.keys, JsMap.has, h]
      · have hset : JsMap.set ((k1, v1) :: rest) k v
            = (k1, v1) :: JsMap.set rest k v := by
          simp [JsMap.set, h]
        have hhas : JsMap.has ((k1, v1) :: rest) k = JsMap.has rest k := by
          simp [JsMap.has, h]
        rw [hset, hhas]
        simp only [JsMap.keys, List.map_cons] at ih ⊢
        rw [ih]
        by_cases h2 : JsMap.has rest k = true <;> simp [h2]

theorem mem_keys_set_self (m : JsMap K V) (k : K) (v : V) :
    k ∈ (m.set k v).keys := by
  rw [keys_set]
  by_cases h : m.has k
  · simp only [h, if_true]
    exact (has_iff_mem_keys m k).mp h
  · simp [h]

theorem mem_set (m : JsMap K V) (k : K) (v : V) (q : K × V) :
    q ∈ m.set k v → q = (k, v) ∨ q ∈ m := by
  induction m with
  | nil =>
      intro hq
      simp [JsMap.set] at hq
      exact Or.inl hq
  | cons p rest ih =>
      obtain ⟨k1, v1⟩ := p
      by_cases h : k1 = k
      · subst h
        simp [JsMap.set]
        intro hq
        rcases hq with hq | hq
        · exact Or.inl hq
        · exact Or.inr (Or.inr hq)
      · simp [JsMap.set, h]
        intro hq
        rcases hq with hq | hq
        · exact Or.inr (Or.inl hq)
        · rcases ih hq with hh | hh
          · exact Or.inl hh
          · exact Or.inr (Or.inr hh)

theorem set_get_self (m : JsMap K V) (k : K) (v : V) :
    m.get k = some v → m.set k v = m := by
  induction m with
  | nil => simp [JsMap.get]
  | cons p rest ih =>
      obtain ⟨k1, v1⟩ := p
      by_cases h : k1 = k
      · subst h
        intro hv
        simp [JsMap.get] at hv
        simp [JsMap.set, hv]
      · intro hv
        simp [JsMap.get, h] at hv
        simp [JsMap.set, h, ih hv]

theorem nodup_keys_set (m : JsMap K V) (k : K) (v : V)
    (h : m.keys.Nodup) : (m.set k v).keys.Nodup := by
  rw [keys_set]
  by_cases hh : m.has k = true
  · simpa [hh] using h
  · have hk : k ∉ m.keys := fun hm => by
      rw [(has_iff_mem_keys m k).mpr hm] at hh
      exact hh rfl
    simp only [hh, if_false]
    refine List.Nodup.append h (List.nodup_singleton k) ?_
    intro a ha hb
    rw [List.mem_singleton] at hb
    subst hb
    exact hk ha

theorem mem_delete (m : JsMap K V) (k : K) (q : K × V) :
    q ∈ m.delete k ↔ q ∈ m ∧ q.1 ≠ k := by
  simp [JsMap.delete, List.mem_filter]

theorem get_delete_self (m : JsMap K V) (k : K) :
    (m.delete k).get k = none := by
  induction m with
  | nil => rfl
  | cons p rest ih =>
      obtain ⟨k1, v1⟩ := p
      by_cases h : k1 = k
      · simpa [JsMap.delete, h] using ih
      · have hd : JsMap.delete ((k1, v1) :: rest) k
            = (k1, v1) :: JsMap.delete rest k := by
          simp [JsMap.delete, h]
        rw [hd]
        simp [JsMap.get, h, ih]

theorem get_delete_ne (m : JsMap K V) (k k1 : K) (h : k1 ≠ k) :
    (m.delete k).get k1 = m.get k1 := by
  induction m with
  | nil => rfl
  | cons p rest ih =>
      obtain ⟨k2, v2⟩ := p
      by_cases h2 : k2 = k
      · subst h2
        have hd : JsMap.delete ((k2, v2) :: rest) k2 = JsMap.delete rest k2 := by
          simp [JsMap.delete]
        rw [hd, ih]
        simp [JsMap.get, Ne.symm h]
      · have hd : JsMap.delete ((k2, v2) :: rest) k
            = (k2, v2) :: JsMap.delete rest k := by
          simp [JsMap.delete, h2]
        rw [hd]
        by_cases h3 : k2 = k1 <;> simp [JsMap.get, h3, ih]

theorem has_delete_self (m : JsMap K V) (k : K) :
    (m.delete k).has k = false := by
  rw [has_eq_isSome_get, get_delete_self]
  rfl

theorem delete_of_not_has (m : JsMap K V) (k : K)
    (h : m.has k = false) : m.delete k = m := by
  induction m with
  | nil => rfl
  | cons p rest ih =>
      obtain ⟨k1, v1⟩ := p
      simp only [JsMap.has, Bool.or_eq_false_iff, decide_eq_false_iff_not] at h
      have hd : JsMap.delete ((k1, v1) :: rest) k
          = (k1, v1) :: JsMap.delete rest k := by
        simp [JsMap.delete, h.1]
      rw [hd, ih h.2]

theorem keys_delete_sublist (m : JsMap K V) (k : K) :
    (m.delete k).keys.Sublist m.keys := by
  exact List.Sublist.map Prod.fst (List.filter_sublist m)

theorem nodup_keys_delete (m : JsMap K V) (k : K)
    (h : m.keys.Nodup) : (m.delete k).keys.Nodup := by
  exact (keys_delete_sublist m k).nodup h

theorem get_mapVal (f : K → V → V) (m : JsMap K V) (k : K) :
    (mapVal f m).get k = (m.get k).map (f k) := by
  induction m with
  | nil => rfl
  | cons p rest ih =>
      obtain ⟨k1, v1⟩ := p
      by_cases h : k1 = k
      · subst h
        simp [JsMap.mapVal, JsMap.get]
      · simpa [JsMap.mapVal, JsMap.get, h] using ih

omit [DecidableEq K] in
theorem keys_mapVal (f : K → V → V) (m : JsMap K V) :
    (mapVal f m).keys = m.keys := by
  induction m with
  | nil => rfl
  | cons p rest ih => simp [JsMap.mapVal, JsMap.keys] at ih ⊢

end JsMap

/-! Lemmas about the store operations. -/

namespace Store

theorem hasComponent_eq_isSome_getComponent (s : Store) (e : Entity) (t : String) :
    s.hasComponent e t = (s.getComponent e t).isSome := by
  unfold Store.hasComponent Store.getComponent
  cases s.components.get t with
  | none => rfl
  | some sub => exact JsMap.has_eq_isSome_get sub e

theorem getComponent_type (s : Store) (hwf : s.WF) (e : Entity) (t : String)
    (c : Component) (hc : s.getComponent e t = some c) : c.type = t := by
  unfold Store.getComponent at hc
  cases hg : s.components.get t with
  | none => rw [hg] at hc; simp at hc
  | some sub =>
      rw [hg] at hc
      simp only at hc
      have hmem : (t, sub) ∈ s.components := JsMap.get_mem _ _ _ hg
      have hq : (e, c) ∈ sub := JsMap.get_mem _ _ _ hc
      exact (hwf.2 (t, sub) hmem).2 (e, c) hq

theorem addComponent_nextId (s : Store) (e : Entity) (c : Component) :
    (s.addComponent e c).nextId = s.nextId := by
  unfold Store.addComponent
  cases hg : (if s.components.has c.type then s.components
      else s.components.set c.type ([] : JsMap Entity Component)).get c.type <;>
    simp [hg]

theorem addComponent_entities (s : Store) (e : Entity) (c : Component) :
    (s.addComponent e c).entities = s.entities := by
  unfold Store.addComponent
  cases hg : (if s.components.has c.type then s.components
      else s.components.set c.type ([] : JsMap Entity Component)).get c.type <;>
    simp [hg]

theorem foldl_addComponent_nextId (cs : List Component) (e : Entity) (s : Store) :
    (cs.foldl (fun st c => st.addComponent e c) s).nextId = s.nextId := by
  induction cs generalizing s with
  | nil => rfl
  | cons c cs ih => simp [List.foldl_cons, ih, addComponent_nextId]

theorem foldl_addComponent_entities (cs : List Component) (e : Entity) (s : Store) :
    (cs.foldl (fun st c => st.addComponent e c) s).entities = s.entities := by
  induction cs generalizing s with
  | nil => rfl
  | cons c cs ih => simp [List.foldl_cons, ih, addComponent_entities]

theorem removeEntity_getComponent (s : Store) (e e1 : Entity) (t : String) :
    (s.removeEntity e).getComponent e1 t
      = if e1 = e then none else s.getComponent e1 t := by
  unfold Store.removeEntity Store.getComponent
  simp only [JsMap.get_mapVal]
  cases s.components.get t with
  | none => simp
  | some sub =>
      simp only [Option.map_some']
      by_cases h : e1 = e
      · subst h
        simp [JsMap.get_delete_self]
      · simp [JsMap.get_delete_ne _ _ _ h, h]

theorem queryIterAux_eq (s : Store) (types : List String) (es : List Entity) :
    queryIterAux s types es
      = (es.filter (fun e => s.checkRemainingComponents e types)).map
          (fun e => s.storeQueryTuple types e) := by
  induction es with
  | nil => rfl
  | cons e es ih =>
      by_cases h : s.checkRemainingComponents e types = true <;>
        simp [queryIterAux, h, ih]

end Store

/-! Preservation of store well-formedness. -/

theorem compsWF_set (m : JsMap String (JsMap Entity Component)) (t : String)
    (sub : JsMap Entity Component) (hm : CompsWF m)
    (hnd : (sub.map Prod.fst).Nodup)
    (htag : ∀ q ∈ sub, (Prod.snd q).type = t) :
    CompsWF (m.set t sub) := by
  constructor
  · exact JsMap.nodup_keys_set m t sub hm.1
  · intro p hp
    rcases JsMap.mem_set m t sub p hp with h | h
    · subst h
      exact ⟨hnd, htag⟩
    · exact hm.2 p h

theorem compsWF_new : CompsWF ([] : JsMap String (JsMap Entity Component)) := by
  constructor
  · exact List.nodup_nil
  · intro p hp
    simp at hp

theorem wf_addComponent (s : Store) (hwf : s.WF) (e : Entity) (c : Component) :
    (s.addComponent e c).WF := by
  have hm0 : CompsWF (if s.components.has c.type then s.components
      else s.components.set c.type ([] : JsMap Entity Component)) := by
    by_cases h : s.components.has c.type = true
    · simpa [h] using hwf
    · simp only [h, if_false]
      exact compsWF_set _ _ _ hwf List.nodup_nil (by intro q hq; simp at hq)
  unfold Store.WF Store.addComponent
  cases hg : (if s.components.has c.type then s.components
      else s.components.set c.type ([] : JsMap Entity Component)).get c.type with
  | none => simpa [hg] using hm0
  | some sub =>
      simp only [hg]
      have hmem := JsMap.get_mem _ _ _ hg
      have hsub := hm0.2 _ hmem
      refine compsWF_set _ _ _ hm0 (JsMap.nodup_keys_set sub e c hsub.1) ?_
      intro q hq
      rcases JsMap.mem_set sub e c q hq with h | h
      · subst h
        rfl
      · exact hsub.2 q h

theorem wf_foldl_addComponent (cs : List Component) (e : Entity) (s : Store)
    (hwf : s.WF) : (cs.foldl (fun st c => st.addComponent e c) s).WF := by
  induction cs generalizing s with
  | nil => exact hwf
  | cons c cs ih =>
      simp only [List.foldl_cons]
      exact ih _ (wf_addComponent s hwf e c)

theorem wf_removeComponent (s : Store) (hwf : s.WF) (e : Entity) (t : String) :
    (s.removeComponent e t).WF := by
  unfold Store.WF Store.removeComponent
  cases hg : s.components.get t with
  | none => exact hwf
  | some sub =>
      simp only
      have hmem := JsMap.get_mem _ _ _ hg
      have hsub := hwf.2 _ hmem
      refine compsWF_set _ _ _ hwf (JsMap.nodup_keys_delete sub e hsub.1) ?_
      intro q hq
      exact hsub.2 q ((JsMap.mem_delete sub e q).mp hq).1

theorem wf_removeEntity (s : Store) (hwf : s.WF) (e : Entity) :
    (s.removeEntity e).WF := by
  unfold Store.WF Store.removeEntity
  constructor
  · simpa [JsMap.keys_mapVal] using hwf.1
  · intro p hp
    simp only [JsMap.mapVal, List.mem_map] at hp
    obtain ⟨p0, hp0, hpe⟩ := hp
    have hsub := hwf.2 p0 hp0
    subst hpe
    constructor
    · exact JsMap.nodup_keys_delete _ e hsub.1
    · intro q hq
      exact hsub.2 q ((JsMap.mem_delete _ e q).mp hq).1

theorem wf_applyOp (s : Store) (hwf : s.WF) (op : Op) : (applyOp s op).WF := by
  cases op with
  | addEntity cs => exact wf_foldl_addComponent cs _ _ hwf
  | addComponent e c => exact wf_addComponent s hwf e c
  | removeComponent e t => exact wf_removeComponent s hwf e t
  | removeEntity e => exact wf_removeEntity s hwf e
  | clearEntities => exact compsWF_new
  | clear => exact compsWF_new

theorem wf_runOps (s : Store) (hwf : s.WF) (ops : List Op) :
    (runOps s ops).WF := by
  induction ops generalizing s with
  | nil => exact hwf
  | cons op ops ih => exact ih _ (wf_applyOp s hwf op)

theorem runOps_wf (ops : List Op) : (runOps Store.new ops).WF :=
  wf_runOps Store.new (by decide) ops

/-! Further shared lemmas used by the claim theorems. -/

namespace Store

theorem query_map_entity (s : Store) (t0 : String) (rest : List String) :
    (s.query t0 rest).map QTuple.entity
      = (s.anchorEntities t0).filter (fun e => s.holdsAll e (t0 :: rest)) := by
  unfold Store.query Store.anchorEntities
  cases hg : s.components.get t0 with
  | none => simp
  | some sub =>
      simp only [List.map_map]
      have h1 : (QTuple.entity ∘ fun e => s.storeQueryTuple (t0 :: rest) e)
          = fun e => e := rfl
      rw [h1, List.map_id']
      refine List.filter_congr ?_
      intro e he
      have ht0 : s.hasComponent e t0 = true := by
        unfold Store.hasComponent
        rw [hg]
        exact (JsMap.has_iff_mem_keys sub e).mpr he
      unfold Store.checkRemainingComponents Store.holdsAll
      simp [List.all_cons, ht0]

theorem removeEntity_preserves_others (s : Store) (e e1 : Entity) (h1 : e1 ≠ e) :
    (e1 ∈ (s.removeEntity e).entities ↔ e1 ∈ s.entities)
    ∧ ∀ t, (s.removeEntity e).getComponent e1 t = s.getComponent e1 t := by
  constructor
  · unfold Store.removeEntity
    simp [JsSet.delete, List.mem_filter, h1]
  · intro t
    rw [Store.removeEntity_getComponent]
    simp [h1]

theorem removeComponent_nextId (s : Store) (e : Entity) (t : String) :
    (s.removeComponent e t).nextId = s.nextId := by
  unfold Store.removeComponent
  cases hg : s.components.get t <;> simp [hg]

theorem addComponent_components (s : Store) (e : Entity) (c : Component)
    (sub : JsMap Entity Component)
    (hg : (if s.components.has c.type then s.components
        else s.components.set c.type ([] : JsMap Entity Component)).get c.type
      = some sub) :
    (s.addComponent e c).components
      = (if s.components.has c.type then s.components
          else s.components.set c.type
            ([] : JsMap Entity Component)).set c.type (sub.set e c) := by
  unfold Store.addComponent
  simp only
  rw [hg]

theorem addComponent_sub_exists (s : Store) (c : Component) :
    ∃ sub, (if s.components.has c.type then s.components
        else s.components.set c.type ([] : JsMap Entity Component)).get c.type
      = some sub := by
  by_cases hb : s.components.has c.type = true
  · rw [if_pos hb]
    rw [JsMap.has_eq_isSome_get] at hb
    exact Option.isSome_iff_exists.mp hb
  · rw [if_neg hb]
    exact ⟨[], JsMap.get_set_self _ _ _⟩

theorem getComponent_addComponent_self (s : Store) (e : Entity) (c : Component) :
    (s.addComponent e c).getComponent e c.type = some c := by
  obtain ⟨sub, hg⟩ := addComponent_sub_exists s c
  unfold Store.getComponent
  rw [addComponent_components s e c sub hg, JsMap.get_set_self]
  exact JsMap.get_set_self sub e c

theorem mem_anchorEntities_of_hasComponent (s : Store) (e : Entity) (t : String)
    (h : s.hasComponent e t = true) : e ∈ s.anchorEntities t := by
  unfold Store.hasComponent at h
  unfold Store.anchorEntities
  cases hg : s.components.get t with
  | none => rw [hg] at h; simp at h
  | some sub =>
      rw [hg] at h
      exact (JsMap.has_iff_mem_keys sub e).mp h

end Store

theorem applyOp_nextId_mono (s : Store) (op : Op) :
    s.nextId ≤ (applyOp s op).nextId := by
  cases op with
  | addEntity cs =>
      show s.nextId ≤ (s.addEntity cs).1.nextId
      unfold Store.addEntity
      rw [Store.foldl_addComponent_nextId]
      exact Nat.le_succ s.nextId
  | addComponent e c =>
      rw [show applyOp s (Op.addComponent e c) = s.addComponent e c from rfl,
        Store.addComponent_nextId]
  | removeComponent e t =>
      rw [show applyOp s (Op.removeComponent e t) = s.removeComponent e t from rfl,
        Store.removeComponent_nextId]
  | removeEntity e => exact Nat.le_refl _
  | clearEntities => exact Nat.le_refl _
  | clear => exact Nat.le_refl _

theorem runOps_nextId_mono (s : Store) (ops : List Op) :
    s.nextId ≤ (runOps s ops).nextId := by
  induction ops generalizing s with
  | nil => exact Nat.le_refl _
  | cons op ops ih => exact Nat.le_trans (applyOp_nextId_mono s op) (ih _)

theorem allocatedIds_lt (s : Store) (ops : List Op) :
    ∀ id ∈ allocatedIds s ops, id < (runOps s ops).nextId := by
  induction ops generalizing s with
  | nil => intro id h; simp [allocatedIds] at h
  | cons op ops ih =>
      cases op with
      | addEntity cs =>
          intro id h
          rcases List.mem_cons.mp h with h | h
          · have h1 : (applyOp s (Op.addEntity cs)).nextId = s.nextId + 1 := by
              show (s.addEntity cs).1.nextId = s.nextId + 1
              unfold Store.addEntity
              rw [Store.foldl_addComponent_nextId]
            have h2 := runOps_nextId_mono (applyOp s (Op.addEntity cs)) ops
            rw [h1] at h2
            have h3 : id = s.nextId := h
            rw [h3]
            exact Nat.lt_of_lt_of_le (Nat.lt_succ_self _) h2
          · exact ih _ id h
      | addComponent e c => exact ih _
      | removeComponent e t => exact ih _
      | removeEntity e => exact ih _
      | clearEntities => exact ih _
      | clear => exact ih _

namespace SchedApp

variable {σ : Type}

theorem runSystems_log (interp : σ → Store → Store) (st : Store) (ss : List σ) :
    (runSystems interp st ss).2 = ss := by
  induction ss generalizing st with
  | nil => rfl
  | cons s ss ih => simp [runSystems, ih]

theorem step_log (interp : σ → Store → Store) (a : SchedApp σ) :
    (step interp a).2 = a.systems :=
  runSystems_log interp a.store a.systems

theorem step_systems (interp : σ → Store → Store) (a : SchedApp σ) :
    (step interp a).1.systems = a.systems :=
  rfl

theorem stepsN_count [DecidableEq σ] (interp : σ → Store → Store)
    (a : SchedApp σ) (s0 : σ) (n : Nat) :
    ((stepsN interp a n).2).count s0 = n * (a.systems).count s0 := by
  induction n generalizing a with
  | zero => simp [stepsN]
  | succ n ih =>
      show ((step interp a).2 ++ (stepsN interp (step interp a).1 n).2).count s0
        = (n + 1) * (a.systems).count s0
      rw [List.count_append, step_log, ih, step_systems]
      ring

theorem run_log (interp : σ → Store → Store) (a : SchedApp σ) :
    (run interp a).2 = a.startupSystems ++ a.systems
    ∧ (run interp a).1.systems = a.systems
    ∧ (run interp a).1.startupSystems = a.startupSystems := by
  unfold run loopOnce
  simp [runSystems_log, step, SchedApp.step]

end SchedApp

/-! The claim theorems. -/

/-- C1: for every well-formed store and non-empty type list `t0 :: rest`,
the eager query returns exactly one tuple per entity holding a component of
every listed type (and none for entities holding only some), each tuple
carrying that entity's components in input-list order with the entity id
last, the tuples appearing in the insertion order of the anchor type `t0`'s
sub-map. -/
theorem query_spec (s : Store) (hwf : s.WF) (t0 : String) (rest : List String) :
    ((s.query t0 rest).map QTuple.entity
        = (s.anchorEntities t0).filter (fun e => s.holdsAll e (t0 :: rest)))
    ∧ (∀ tu ∈ s.query t0 rest,
        tu.comps = (t0 :: rest).map (fun t => s.getComponent tu.entity t)
        ∧ ∀ oc ∈ tu.comps, oc.isSome = true)
    ∧ (∀ e1, ((s.query t0 rest).map QTuple.entity).count e1
        = if s.holdsAll e1 (t0 :: rest) = true then 1 else 0) := by
  refine ⟨Store.query_map_entity s t0 rest, ?_, ?_⟩
  · intro tu htu
    unfold Store.query at htu
    cases hg : s.components.get t0 with
    | none => rw [hg] at htu; simp at htu
    | some sub =>
        rw [hg] at htu
        simp only [List.mem_map, List.mem_filter] at htu
        obtain ⟨e, ⟨he, hchk⟩, rfl⟩ := htu
        refine ⟨rfl, ?_⟩
        intro oc hoc
        simp only [Store.storeQueryTuple, List.mem_map] at hoc
        obtain ⟨t, ht, rfl⟩ := hoc
        rcases List.mem_cons.mp ht with h | h
        · subst h
          unfold Store.getComponent
          rw [hg]
          exact JsMap.get_isSome_of_mem_keys sub e he
        · have hh : s.hasComponent e t = true := by
            unfold Store.checkRemainingComponents at hchk
            simp only [List.drop_succ_cons, List.drop_zero,
              List.all_eq_true] at hchk
            exact hchk t h
          rw [Store.hasComponent_eq_isSome_getComponent] at hh
          exact hh
  · intro e1
    rw [Store.query_map_entity s t0 rest]
    cases hg : s.components.get t0 with
    | none =>
        have ha : s.anchorEntities t0 = [] := by
          unfold Store.anchorEntities
          rw [hg]
        have ht0 : s.hasComponent e1 t0 = false := by
          unfold Store.hasComponent
          rw [hg]
        have hh : s.holdsAll e1 (t0 :: rest) = false := by
          unfold Store.holdsAll
          simp [List.all_cons, ht0]
        rw [ha]
        simp [hh]
    | some sub =>
        have ha : s.anchorEntities t0 = sub.keys := by
          unfold Store.anchorEntities
          rw [hg]
        rw [ha]
        have hnd : (sub.keys).Nodup :=
          (hwf.2 (t0, sub) (JsMap.get_mem _ _ _ hg)).1
        by_cases hh : s.holdsAll e1 (t0 :: rest) = true
        · have ht0 : s.hasComponent e1 t0 = true := by
            unfold Store.holdsAll at hh
            simp only [List.all_cons, Bool.and_eq_true] at hh
            exact hh.1
          have he1 : e1 ∈ sub.keys := by
            unfold Store.hasComponent at ht0
            rw [hg] at ht0
            exact (JsMap.has_iff_mem_keys sub e1).mp ht0
          have hmemf : e1 ∈ sub.keys.filter
              (fun e => s.holdsAll e (t0 :: rest)) :=
            List.mem_filter.mpr ⟨he1, hh⟩
          rw [List.count_eq_one_of_mem (List.Nodup.filter _ hnd) hmemf]
          simp [hh]
        · have hnm : e1 ∉ sub.keys.filter
              (fun e => s.holdsAll e (t0 :: rest)) := by
            intro hc
            exact hh (List.mem_filter.mp hc).2
          rw [List.count_eq_zero.mpr hnm]
          simp [hh]

/-- C1 witness: on the spec's example store, anchored on body with
movement also required. -/
theorem query_spec_witness :
    exampleStore.WF
    ∧ (((exampleStore.query "body" ["movement"]).map QTuple.entity
          = (exampleStore.anchorEntities "body").filter
              (fun e => exampleStore.holdsAll e ["body", "movement"]))
      ∧ (∀ tu ∈ exampleStore.query "body" ["movement"],
          tu.comps = (["body", "movement"]).map
              (fun t => exampleStore.getComponent tu.entity t)
          ∧ ∀ oc ∈ tu.comps, oc.isSome = true)
      ∧ (∀ e1, ((exampleStore.query "body" ["movement"]).map QTuple.entity).count e1
          = if exampleStore.holdsAll e1 ["body", "movement"] = true then 1 else 0)) :=
  ⟨by decide, query_spec exampleStore (by decide) "body" ["movement"]⟩

/-- C2: on any fixed store and non-empty type list, the eager query equals,
element for element, the sequence of tuples the lazy query yields when
consumed to completion. -/
theorem query_eq_queryIter (s : Store) (t0 : String) (rest : List String) :
    s.query t0 rest = s.queryIter t0 rest := by
  unfold Store.query Store.queryIter
  cases hg : s.components.get t0 with
  | none => rfl
  | some sub => exact (Store.queryIterAux_eq s (t0 :: rest) sub.keys).symm

/-- C3: `hasComponent` agrees with `getComponent` returning a present
value, and a present value's discriminant equals the looked-up tag; both
operations are total functions of the store (they never throw). -/
theorem hasComponent_iff_getComponent (s : Store) (hwf : s.WF)
    (e : Entity) (t : String) :
    (s.hasComponent e t = true ↔ (s.getComponent e t).isSome = true)
    ∧ (∀ c, s.getComponent e t = some c → c.type = t) := by
  constructor
  · rw [Store.hasComponent_eq_isSome_getComponent]
  · intro c hc
    exact Store.getComponent_type s hwf e t c hc

/-- C3 witness: entity 1 and tag movement on the example store. -/
theorem hasComponent_iff_getComponent_witness :
    exampleStore.WF
    ∧ ((exampleStore.hasComponent 1 "movement" = true
          ↔ (exampleStore.getComponent 1 "movement").isSome = true)
      ∧ (∀ c, exampleStore.getComponent 1 "movement" = some c
          → c.type = "movement")) :=
  ⟨by decide, hasComponent_iff_getComponent exampleStore (by decide) 1 "movement"⟩

/-- C4: immediately after `removeEntity e`, `e` is gone from the registry
and holds no component of any type, while every other entity keeps its
registry membership and all of its components. -/
theorem removeEntity_spec (s : Store) (e : Entity) :
    (e ∉ (s.removeEntity e).entities)
    ∧ (∀ t, (s.removeEntity e).hasComponent e t = false)
    ∧ (∀ e1, e1 ≠ e →
        ((e1 ∈ (s.removeEntity e).entities ↔ e1 ∈ s.entities)
         ∧ ∀ t, (s.removeEntity e).getComponent e1 t = s.getComponent e1 t)) := by
  refine ⟨?_, ?_, ?_⟩
  · unfold Store.removeEntity
    simp [JsSet.delete, List.mem_filter]
  · intro t
    rw [Store.hasComponent_eq_isSome_getComponent,
      Store.removeEntity_getComponent]
    simp
  · intro e1 h1
    exact Store.removeEntity_preserves_others s e e1 h1

/-- C4 witness: removing entity 1 from the example store, observed at
entity 2. -/
theorem removeEntity_spec_witness :
    ((2 : Entity) ≠ 1)
    ∧ (1 ∉ (exampleStore.removeEntity 1).entities)
    ∧ (∀ t, (exampleStore.removeEntity 1).hasComponent 1 t = false)
    ∧ ((2 ∈ (exampleStore.removeEntity 1).entities ↔ 2 ∈ exampleStore.entities)
        ∧ ∀ t, (exampleStore.removeEntity 1).getComponent 2 t
            = exampleStore.getComponent 2 t) :=
  ⟨by decide, (removeEntity_spec exampleStore 1).1,
    (removeEntity_spec exampleStore 1).2.1,
    (removeEntity_spec exampleStore 1).2.2 2 (by decide)⟩

/-- C5: along any operation sequence from a fresh app, every id handed out
by `addEntity` stays below the current counter, a further `addEntity`
returns exactly the counter value (hence an id strictly greater than every
previously allocated one, never reused), and neither `clearEntities` nor
`clear` resets the counter. -/
theorem entity_id_fresh (ops : List Op) (cs : List Component) :
    (∀ id ∈ allocatedIds Store.new ops,
        id < ((runOps Store.new ops).addEntity cs).2)
    ∧ (((runOps Store.new ops).addEntity cs).2 = (runOps Store.new ops).nextId)
    ∧ (∀ s : Store, (s.clearEntities).nextId = s.nextId
        ∧ (s.clear).nextId = s.nextId) := by
  refine ⟨?_, rfl, fun s => ⟨rfl, rfl⟩⟩
  intro id h
  exact allocatedIds_lt Store.new ops id h

/-- C5 witness: a trace that allocates id 0, removes it and clears; the
next allocation still returns a strictly larger id. -/
theorem entity_id_fresh_witness :
    (0 : Entity) ∈ allocatedIds Store.new
        [Op.addEntity [], Op.removeEntity 0, Op.clear]
    ∧ 0 < ((runOps Store.new
        [Op.addEntity [], Op.removeEntity 0, Op.clear]).addEntity []).2 :=
  ⟨by decide,
    (entity_id_fresh [Op.addEntity [], Op.removeEntity 0, Op.clear] []).1 0
      (by decide)⟩

/-- C6: `step` invokes every registered per-step system exactly once, in
registration order, on the application handle, and never a startup system;
across a `run` followed by `n` further `step` calls, a system registered
once as a startup system (and not as a per-step system) is invoked exactly
once. -/
theorem step_run_spec {σ : Type} [DecidableEq σ] (interp : σ → Store → Store)
    (a : SchedApp σ) (s0 : σ) (n : Nat)
    (h1 : a.startupSystems.count s0 = 1) (h2 : s0 ∉ a.systems) :
    ((SchedApp.step interp a).2 = a.systems)
    ∧ (s0 ∉ (SchedApp.step interp a).2)
    ∧ (((SchedApp.run interp a).2
          ++ (SchedApp.stepsN interp (SchedApp.run interp a).1 n).2).count s0
        = 1) := by
  refine ⟨SchedApp.step_log interp a, ?_, ?_⟩
  · rw [SchedApp.step_log]
    exact h2
  · obtain ⟨hl, hs, _⟩ := SchedApp.run_log interp a
    rw [List.count_append, hl, SchedApp.stepsN_count, hs, List.count_append,
      h1, List.count_eq_zero.mpr h2]
    omega

/-- C6 witness: startup system 7 and per-step systems 1, 2, driven for two
further steps after run. -/
theorem step_run_spec_witness :
    (SchedApp.mk Store.new [7] [1, 2] false).startupSystems.count 7 = 1
    ∧ (7 : Nat) ∉ (SchedApp.mk Store.new [7] [1, 2] false).systems
    ∧ (((SchedApp.step (fun _ st => st) (SchedApp.mk Store.new [7] [1, 2] false)).2
          = [1, 2])
      ∧ ((7 : Nat) ∉ (SchedApp.step (fun _ st => st)
            (SchedApp.mk Store.new [7] [1, 2] false)).2)
      ∧ (((SchedApp.run (fun _ st => st) (SchedApp.mk Store.new [7] [1, 2] false)).2
            ++ (SchedApp.stepsN (fun _ st => st)
                (SchedApp.run (fun _ st => st)
                  (SchedApp.mk Store.new [7] [1, 2] false)).1 2).2).count 7
          = 1)) :=
  ⟨by decide, by decide,
    step_run_spec (fun _ st => st) (SchedApp.mk Store.new [7] [1, 2] false)
      7 2 (by decide) (by decide)⟩

/-- C7: the memoized query computes the eager result on the first `get`,
returns that snapshot unchanged on later `get`s against any (arbitrarily
mutated) store, and recomputes from the current store after
`invalidate()`. -/
theorem cacheQuery_spec (t0 : String) (rest : List String) (a b c : Store) :
    (((cacheQuery t0 rest).get a).1 = a.query t0 rest)
    ∧ ((((cacheQuery t0 rest).get a).2.get b).1 = a.query t0 rest)
    ∧ (((((cacheQuery t0 rest).get a).2.invalidate).get c).1
        = c.query t0 rest) :=
  ⟨rfl, rfl, rfl⟩

/-- C8: whenever the entity has no component of the given type (in
particular when the tag was never used), `removeComponent` leaves the store
exactly as it was; and whenever the entity is not live, `removeEntity`
leaves every other entity's registry membership and components unchanged;
neither raises an error (both are total). -/
theorem remove_absent_noop (s : Store) (e : Entity) (t : String) :
    (s.hasComponent e t = false → s.removeComponent e t = s)
    ∧ (e ∉ s.entities → ∀ e1, e1 ≠ e →
        ((e1 ∈ (s.removeEntity e).entities ↔ e1 ∈ s.entities)
         ∧ ∀ t1, (s.removeEntity e).getComponent e1 t1
             = s.getComponent e1 t1)) := by
  constructor
  · intro h1
    unfold Store.removeComponent
    cases hg : s.components.get t with
    | none => rfl
    | some sub =>
        have hh : sub.has e = false := by
          unfold Store.hasComponent at h1
          rw [hg] at h1
          exact h1
        simp only
        rw [JsMap.delete_of_not_has sub e hh, JsMap.set_get_self _ _ _ hg]
  · intro _ e1 h
    exact Store.removeEntity_preserves_others s e e1 h

/-- C8 witness: removing the absent movement component from the live
shape-only entity 2 is a no-op, and removing the non-live entity 5 leaves
entity 2 untouched. -/
theorem remove_absent_noop_witness :
    exampleStore.hasComponent 2 "movement" = false
    ∧ (2 : Entity) ∈ exampleStore.entities
    ∧ (exampleStore.removeComponent 2 "movement" = exampleStore)
    ∧ (5 : Entity) ∉ exampleStore.entities
    ∧ ((2 ∈ (exampleStore.removeEntity 5).entities ↔ 2 ∈ exampleStore.entities)
        ∧ ∀ t1, (exampleStore.removeEntity 5).getComponent 2 t1
            = exampleStore.getComponent 2 t1) :=
  ⟨by decide, by decide,
    (remove_absent_noop exampleStore 2 "movement").1 (by decide),
    by decide,
    (remove_absent_noop exampleStore 5 "movement").2 (by decide) 2 (by decide)⟩

/-- C9: `addComponent` stores the component under its own tag even for an
id that is not live: afterwards the component is retrievable, presence
holds, the id matches a query anchored on that tag, and the id still does
not appear in the entity registry. -/
theorem addComponent_unregistered (s : Store) (e : Entity) (c : Component)
    (h : e ∉ s.entities) :
    ((s.addComponent e c).getComponent e c.type = some c)
    ∧ ((s.addComponent e c).hasComponent e c.type = true)
    ∧ (e ∈ ((s.addComponent e c).query c.type []).map QTuple.entity)
    ∧ (e ∉ (s.addComponent e c).getEntities) := by
  have hget : (s.addComponent e c).getComponent e c.type = some c :=
    Store.getComponent_addComponent_self s e c
  have hhas : (s.addComponent e c).hasComponent e c.type = true := by
    rw [Store.hasComponent_eq_isSome_getComponent, hget]
    rfl
  refine ⟨hget, hhas, ?_, ?_⟩
  · rw [Store.query_map_entity]
    refine List.mem_filter.mpr
      ⟨Store.mem_anchorEntities_of_hasComponent _ _ _ hhas, ?_⟩
    unfold Store.holdsAll
    simp only [List.all_cons, List.all_nil, Bool.and_true]
    exact hhas
  · show e ∉ (s.addComponent e c).entities
    rw [Store.addComponent_entities]
    exact h

/-- C9 witness: attaching a movement component to the non-live id 9. -/
theorem addComponent_unregistered_witness :
    (9 : Entity) ∉ exampleStore.entities
    ∧ ((exampleStore.addComponent 9
          { type := "movement", payload := 99 }).getComponent 9 "movement"
        = some { type := "movement", payload := 99 })
    ∧ ((exampleStore.addComponent 9
          { type := "movement", payload := 99 }).hasComponent 9 "movement" = true)
    ∧ ((9 : Entity) ∈ ((exampleStore.addComponent 9
          { type := "movement", payload := 99 }).query "movement" []).map
            QTuple.entity)
    ∧ ((9 : Entity) ∉ (exampleStore.addComponent 9
          { type := "movement", payload := 99 }).getEntities) :=
  ⟨by decide,
    (addComponent_unregistered exampleStore 9
      { type := "movement", payload := 99 } (by decide)).1,
    (addComponent_unregistered exampleStore 9
      { type := "movement", payload := 99 } (by decide)).2.1,
    (addComponent_unregistered exampleStore 9
      { type := "movement", payload := 99 } (by decide)).2.2.1,
    (addComponent_unregistered exampleStore 9
      { type := "movement", payload := 99 } (by decide)).2.2.2⟩

/-- C10: the single system built by `combineSystems` acts on a handle
exactly as invoking the given systems sequentially in argument order, and
`combineSystems` of no systems is a no-op system. -/
theorem combineSystems_spec (ss : List SystemF) (app : Store) :
    (combineSystems ss app = applySequentially ss app)
    ∧ (combineSystems [] app = app) := by
  constructor
  · induction ss generalizing app with
    | nil => rfl
    | cons s ss ih => exact ih (s app)
  · rfl

end Parsecs
